import Mathlib

/-!
Verification of `src/toas2dat.c` (TOA-to-time-series converter).

Shallow embedding conventions:
* C `double` values are modelled as exact rationals `ℚ`; the development states
  the arithmetic content of the program (bin selection, block windows, counts)
  over exact arithmetic.
* The float bin counters (`fdata[j] += 1.0`) are modelled as `ℕ` counters.
* `qsort` with `compare_doubles` (a total order by value on doubles) is modelled
  by `List.insertionSort (· ≤ ·)`; the spec itself notes stability is irrelevant.
* Reads through pointers are modelled by total list indexing; a separate
  pointer-level model (`cursorSweep`, `engineOob`) tracks, via `Option`-valued
  indexing, exactly which cursor dereferences the sweep performs.
-/

/-- `WORKLEN` from toas2dat.c line 8: the block capacity of the output buffer. -/
def WORKLEN : ℕ := 65536

/-- `SECPERDAY` from toas2dat.c line 9. -/
def SECPERDAY : ℕ := 86400

/-- `fdata[k] += 1.0` (line 294): increment the counter at index `k`.
If `k` is out of range this is a no-op (the C program would write out of
bounds; the safety claim shows the guarded increments stay in range). -/
def bump (l : List ℕ) (k : ℕ) : List ℕ :=
  l.set k (l.getD k 0 + 1)

/-- The bin-index computation `(int) ((toa - lotime) * dtfract)` of line 294.
For the guarded uses (`lotime ≤ toa`, `dtfract = 1/dt` with `dt > 0`) the C
cast-to-int truncation coincides with the floor, which `Int.toNat` of the
rational floor renders. -/
def binIndex (t lo dtf : ℚ) : ℕ :=
  ((t - lo) * dtf).floor.toNat

/-- The inner placement loop of `main` (toas2dat.c lines 290-299), one block:
while the cursor has not passed the end, stop at the first TOA `≥ hitime`;
place TOAs `≥ lotime` into `fdata` at `binIndex` and count them; skip (but
still consume) TOAs `< lotime`.  Returns the updated block buffer, the
remaining (unconsumed) TOA suffix, and the updated placed counter. -/
def sweepBlock (lo hi dtf : ℚ) : List ℕ → List ℚ → ℕ → List ℕ × List ℚ × ℕ
  | fd, [], p => (fd, [], p)
  | fd, t :: ts, p =>
    if hi ≤ t then (fd, t :: ts, p)
    else if lo ≤ t then sweepBlock lo hi dtf (bump fd (binIndex t lo dtf)) ts (p + 1)
    else sweepBlock lo hi dtf fd ts p

/-- `numwrites` (toas2dat.c lines 267-268):
`(numout % WORKLEN) ? numout / WORKLEN + 1 : numout / WORKLEN`,
with the block capacity `C` kept as a parameter. -/
def numwrites (numout C : ℕ) : ℕ :=
  if numout % C ≠ 0 then numout / C + 1 else numout / C

/-- `numtowrite` for one block (toas2dat.c lines 280-281): the final block is
truncated to `numout % C` when that remainder is nonzero.  `islast` says
whether this is the final block (`ii == numwrites - 1`). -/
def blockLen (numout C : ℕ) (islast : Bool) : ℕ :=
  if numout % C ≠ 0 ∧ islast then numout % C else C

/-- The write loop of `main` (toas2dat.c lines 274-304), generalized over the
block capacity `C` (the program instantiates `C = WORKLEN`).  The argument `n`
is the number of blocks still to emit and `i` is the current block index
(`ii`), so a call from the top has `n = numwrites` and `i = 0`, and the
final block is the one with `n = 0` remaining afterwards.  For each block:
`lotime = ii * blockt`, `hitime = (ii+1) * blockt` with `blockt = C * dt`
(lines 270, 278-279), the buffer is zeroed (lines 285-286), swept
(lines 290-299), and its first `numtowrite` entries are emitted (line 303).
Returns the emitted blocks and the final `numplaced`. -/
def binLoop (dt : ℚ) (C numout : ℕ) : ℕ → ℕ → List ℚ → ℕ → List (List ℕ) × ℕ
  | 0, _, _, p => ([], p)
  | n + 1, i, ts, p =>
    let blockt : ℚ := (C : ℚ) * dt
    let lo : ℚ := (i : ℚ) * blockt
    let hi : ℚ := ((i : ℚ) + 1) * blockt
    let r := sweepBlock lo hi (1 / dt) (List.replicate C 0) ts p
    let rest := binLoop dt C numout n (i + 1) r.2.1 r.2.2
    (r.1.take (blockLen numout C (decide (n = 0))) :: rest.1, rest.2)

/-- The block binning engine (toas2dat.c lines 265-304): `numwrites` blocks
starting from block index 0 with `numplaced = 0`. -/
def binEngine (dt : ℚ) (C numout : ℕ) (ts : List ℚ) : List (List ℕ) × ℕ :=
  binLoop dt C numout (numwrites numout C) 0 ts 0

/-- The normalizer (toas2dat.c lines 246-261): sort the TOAs
(`qsort` with `compare_doubles`), pick the origin `To` (the explicit `-t0`
epoch when given, else the first TOA after sorting; for an empty set the C
reads unallocated memory there, and the value is never used downstream, so
any default renders it), then convert to seconds offset: subtract `To`, and
multiply by `SECPERDAY` when the input unit is days (`!cmd->secP`). -/
def normalizeTOAs (sec : Bool) (t0 : Option ℚ) (toas : List ℚ) : List ℚ :=
  let sorted := toas.insertionSort (· ≤ ·)
  let To := t0.getD (sorted.headD 0)
  if sec then sorted.map (fun x => x - To)
  else sorted.map (fun x => (x - To) * (SECPERDAY : ℚ))

/-- The whole pipeline of `main` after loading: normalize, then run the
binning engine with the program's block capacity `WORKLEN`.  Returns the
emitted blocks and the final `numplaced`. -/
def toas2dat (sec : Bool) (t0 : Option ℚ) (dt : ℚ) (numout : ℕ) (toas : List ℚ) :
    List (List ℕ) × ℕ :=
  binEngine dt WORKLEN numout (normalizeTOAs sec t0 toas)

/-- Number of events of `ts` falling in grid bin `m`, i.e. in
`[m * dt, (m+1) * dt)`. -/
def binCount (dt : ℚ) (ts : List ℚ) (m : ℕ) : ℕ :=
  (ts.filter (fun t => decide ((m : ℚ) * dt ≤ t ∧ t < ((m : ℚ) + 1) * dt))).length

/-- Counts of the contiguous grid bins `lo, lo+1, …, lo+len-1`. -/
def gridCounts (dt : ℚ) (lo len : ℕ) (ts : List ℚ) : List ℕ :=
  (List.range' lo len).map (binCount dt ts)

/-- Modelled from the spec (§4.3): the histogram of event counts over a
pre-defined, contiguous, uniform grid of `numout` bins of width `dt`
starting at the origin — the single-grid reference the block engine is
claimed to refine. -/
def singleGrid (dt : ℚ) (numout : ℕ) (ts : List ℚ) : List ℕ :=
  (List.range numout).map (binCount dt ts)

/-- Total length of the last `n` emitted blocks (all of length `C` except the
final one, which has length `blockLen numout C true`). -/
def blocksTotal (numout C : ℕ) : ℕ → ℕ
  | 0 => 0
  | n + 1 => n * C + blockLen numout C true

/-- The effect of one block's placements on the buffer, as a fold over the
consumed TOAs: place each TOA `≥ lo` at its bin index. -/
def placeFold (lo dtf : ℚ) (fd : List ℕ) (ts : List ℚ) : List ℕ :=
  ts.foldl (fun acc t => if lo ≤ t then bump acc (binIndex t lo dtf) else acc) fd

lemma bump_length (l : List ℕ) (k : ℕ) : (bump l k).length = l.length := by
  simp [bump]

lemma getD_bump (l : List ℕ) (k j : ℕ) (hk : k < l.length) :
    (bump l k).getD j 0 = l.getD j 0 + if j = k then 1 else 0 := by
  rcases eq_or_ne j k with rfl | hne
  · simp [bump, List.getD_eq_getElem?_getD, List.getElem?_set, hk,
      List.getElem?_eq_getElem hk]
  · simp [bump, List.getD_eq_getElem?_getD, List.getElem?_set, hne,
      (Ne.symm hne : k ≠ j)]

lemma sweepBlock_eq (lo hi dtf : ℚ) (fd : List ℕ) (ts : List ℚ) (p : ℕ) :
    sweepBlock lo hi dtf fd ts p =
      (placeFold lo dtf fd (ts.takeWhile fun t => decide (t < hi)),
       ts.dropWhile (fun t => decide (t < hi)),
       p + (ts.takeWhile fun t => decide (t < hi)).countP (fun t => decide (lo ≤ t))) := by
  induction ts generalizing fd p with
  | nil => simp [sweepBlock, placeFold]
  | cons t ts ih =>
    by_cases h : hi ≤ t
    · simp [sweepBlock, h, List.takeWhile_cons, List.dropWhile_cons, not_lt.mpr h, placeFold]
    · have hlt : t < hi := lt_of_not_le h
      by_cases h2 : lo ≤ t <;>
        simp [sweepBlock, h, h2, List.takeWhile_cons, List.dropWhile_cons, hlt, ih,
          placeFold, List.countP_cons] <;>
        omega

lemma placeFold_length (lo dtf : ℚ) (fd : List ℕ) (ts : List ℚ) :
    (placeFold lo dtf fd ts).length = fd.length := by
  induction ts generalizing fd with
  | nil => rfl
  | cons t ts ih =>
    by_cases h : lo ≤ t
    · simp only [placeFold, List.foldl_cons, if_pos h]
      exact (ih (bump fd (binIndex t lo dtf))).trans (bump_length fd _)
    · simp only [placeFold, List.foldl_cons, if_neg h]
      exact ih fd

lemma sweepBlock_fst_length (lo hi dtf : ℚ) (fd : List ℕ) (ts : List ℚ) (p : ℕ) :
    (sweepBlock lo hi dtf fd ts p).1.length = fd.length := by
  rw [sweepBlock_eq]; exact placeFold_length _ _ _ _

lemma placeFold_cons (lo dtf : ℚ) (fd : List ℕ) (t : ℚ) (ts : List ℚ) :
    placeFold lo dtf fd (t :: ts) =
      placeFold lo dtf (if lo ≤ t then bump fd (binIndex t lo dtf) else fd) ts := rfl

lemma ratFloor_eq_intFloor (q : ℚ) : q.floor = ⌊q⌋ := by
  refine le_antisymm ?_ ?_
  · exact Int.le_floor.mpr (Rat.le_floor.mp le_rfl)
  · exact Rat.le_floor.mpr (Int.le_floor.mp le_rfl)

lemma getD_placeFold (lo dtf : ℚ) (fd : List ℕ) (ts : List ℚ) (j : ℕ)
    (hb : ∀ t ∈ ts, lo ≤ t → binIndex t lo dtf < fd.length) :
    (placeFold lo dtf fd ts).getD j 0 =
      fd.getD j 0 + ts.countP (fun t => decide (lo ≤ t ∧ binIndex t lo dtf = j)) := by
  induction ts generalizing fd with
  | nil => simp [placeFold]
  | cons t ts ih =>
    rw [placeFold_cons, List.countP_cons]
    by_cases h : lo ≤ t
    · have hklt : binIndex t lo dtf < fd.length := hb t (by simp) h
      rw [if_pos h, ih _ (fun u hu hlu => by rw [bump_length]; exact hb u (by simp [hu]) hlu),
        getD_bump fd _ j hklt]
      by_cases hj : binIndex t lo dtf = j
      · subst hj
        simp [h]
        omega
      · have hj' : j ≠ binIndex t lo dtf := fun e => hj e.symm
        simp [hj, hj', h]
    · rw [if_neg h, ih fd (fun u hu hlu => hb u (by simp [hu]) hlu)]
      simp [h]

lemma binIndex_lt (dt lo t : ℚ) (C : ℕ) (hdt : 0 < dt)
    (h1 : lo ≤ t) (h2 : t < lo + C * dt) : binIndex t lo (1 / dt) < C := by
  have hu : (t - lo) * (1 / dt) = (t - lo) / dt := by ring
  have hflt : ⌊(t - lo) * (1 / dt)⌋ < (C : ℤ) := by
    rw [Int.floor_lt, hu, div_lt_iff hdt]
    push_cast
    linarith
  have hf0 : (0 : ℤ) ≤ ⌊(t - lo) * (1 / dt)⌋ := by
    apply Int.floor_nonneg.mpr
    rw [hu]
    exact div_nonneg (by linarith) hdt.le
  unfold binIndex
  rw [ratFloor_eq_intFloor]
  omega

lemma binIndex_nonneg_int (dt lo t : ℚ) (hdt : 0 < dt) (h1 : lo ≤ t) :
    (0 : ℤ) ≤ ⌊(t - lo) * (1 / dt)⌋ := by
  apply Int.floor_nonneg.mpr
  have hu : (t - lo) * (1 / dt) = (t - lo) / dt := by ring
  rw [hu]
  exact div_nonneg (by linarith) hdt.le

lemma binIndex_eq_iff (dt lo t : ℚ) (j : ℕ) (hdt : 0 < dt) (h1 : lo ≤ t) :
    binIndex t lo (1 / dt) = j ↔ lo + j * dt ≤ t ∧ t < lo + (j + 1) * dt := by
  have hu : (t - lo) * (1 / dt) = (t - lo) / dt := by ring
  have hf0 := binIndex_nonneg_int dt lo t hdt h1
  have htn : binIndex t lo (1 / dt) = j ↔ ⌊(t - lo) * (1 / dt)⌋ = (j : ℤ) := by
    unfold binIndex
    rw [ratFloor_eq_intFloor]
    omega
  rw [htn, Int.floor_eq_iff]
  rw [hu, le_div_iff hdt, div_lt_iff hdt]
  constructor
  · rintro ⟨hl, hr⟩
    refine ⟨by push_cast at hl ⊢; linarith, by push_cast at hr ⊢; linarith⟩
  · rintro ⟨hl, hr⟩
    refine ⟨by push_cast at hl ⊢; linarith, by push_cast at hr ⊢; linarith⟩

lemma sorted_takeWhile_lt {ts : List ℚ} (hs : ts.Sorted (· ≤ ·)) (a : ℚ) :
    ts.takeWhile (fun t => decide (t < a)) = ts.filter (fun t => decide (t < a)) := by
  induction ts with
  | nil => rfl
  | cons t ts ih =>
    rw [List.sorted_cons] at hs
    by_cases h : t < a
    · simp [List.takeWhile_cons, List.filter_cons, h, ih hs.2]
    · have hall : ∀ u ∈ ts, ¬(u < a) := fun u hu => not_lt.mpr (le_trans (not_lt.mp h) (hs.1 u hu))
      simp only [List.takeWhile_cons, List.filter_cons, h]
      simp only [decide_eq_true_eq, h, if_false]
      symm
      rw [List.filter_eq_nil_iff]
      intro u hu
      simp [hall u hu]

lemma sorted_dropWhile_lt {ts : List ℚ} (hs : ts.Sorted (· ≤ ·)) (a : ℚ) :
    ts.dropWhile (fun t => decide (t < a)) = ts.filter (fun t => decide (a ≤ t)) := by
  induction ts with
  | nil => rfl
  | cons t ts ih =>
    rw [List.sorted_cons] at hs
    by_cases h : t < a
    · simp [List.dropWhile_cons, List.filter_cons, h, not_le.mpr h, ih hs.2]
    · have hat : a ≤ t := not_lt.mp h
      have hall : ∀ u ∈ ts, a ≤ u := fun u hu => le_trans hat (hs.1 u hu)
      simp only [List.dropWhile_cons, List.filter_cons, h, hat]
      simp only [decide_eq_true_eq, h, if_false, hat, if_true]
      rw [List.filter_eq_self.mpr]
      intro u hu
      simp [hall u hu]

lemma getElem_eq_getD (l : List ℕ) (j : ℕ) (h : j < l.length) : l[j] = l.getD j 0 := by
  simp [List.getD_eq_getElem?_getD, List.getElem?_eq_getElem h]

lemma getD_take (l : List ℕ) (L j : ℕ) (hj : j < L) : (l.take L).getD j 0 = l.getD j 0 := by
  simp [List.getD_eq_getElem?_getD, List.getElem?_take_of_lt hj]

lemma binCount_eq_countP (dt : ℚ) (ts : List ℚ) (m : ℕ) :
    binCount dt ts m = ts.countP (fun t => decide ((m : ℚ) * dt ≤ t ∧ t < ((m : ℚ) + 1) * dt)) := by
  rw [binCount, List.countP_eq_length_filter]

lemma block_eq_gridCounts (dt : ℚ) (C i L : ℕ) (ts : List ℚ) (p : ℕ)
    (hdt : 0 < dt) (hL : L ≤ C) (hs : ts.Sorted (· ≤ ·)) :
    ((sweepBlock ((i : ℚ) * ((C : ℚ) * dt)) (((i : ℚ) + 1) * ((C : ℚ) * dt)) (1 / dt)
        (List.replicate C 0) ts p).1).take L = gridCounts dt (i * C) L ts := by
  have hfst : (sweepBlock ((i : ℚ) * ((C : ℚ) * dt)) (((i : ℚ) + 1) * ((C : ℚ) * dt)) (1 / dt)
      (List.replicate C 0) ts p).1 =
      placeFold ((i : ℚ) * ((C : ℚ) * dt)) (1 / dt)
        (List.replicate C 0)
        (ts.filter fun t => decide (t < ((i : ℚ) + 1) * ((C : ℚ) * dt))) := by
    rw [sweepBlock_eq, ← sorted_takeWhile_lt hs]
  rw [hfst]
  have hlo : ((i * C : ℕ) : ℚ) * dt = (i : ℚ) * ((C : ℚ) * dt) := by push_cast; ring
  have hhi : (((i : ℚ) + 1) * ((C : ℚ) * dt)) = (i : ℚ) * ((C : ℚ) * dt) + (C : ℚ) * dt := by ring
  have hplen : (placeFold ((i : ℚ) * ((C : ℚ) * dt)) (1 / dt) (List.replicate C 0)
      (ts.filter fun t => decide (t < ((i : ℚ) + 1) * ((C : ℚ) * dt)))).length = C := by
    rw [placeFold_length, List.length_replicate]
  apply List.ext_getElem
  · rw [List.length_take, hplen]
    simp [gridCounts, Nat.min_eq_left hL]
  · intro j hj1 hj2
    have hjL : j < L := by
      rw [List.length_take, hplen] at hj1
      exact lt_of_lt_of_le hj1 (min_le_left _ _)
    have hjC : j < C := lt_of_lt_of_le hjL hL
    rw [getElem_eq_getD _ _ hj1, getD_take _ _ _ hjL]
    have hbound : ∀ t ∈ ts.filter (fun t => decide (t < ((i : ℚ) + 1) * ((C : ℚ) * dt))),
        (i : ℚ) * ((C : ℚ) * dt) ≤ t →
        binIndex t ((i : ℚ) * ((C : ℚ) * dt)) (1 / dt) < (List.replicate C (0 : ℕ)).length := by
      intro t ht hlt
      have ht' : t < ((i : ℚ) + 1) * ((C : ℚ) * dt) := by
        have := List.of_mem_filter ht
        simpa using this
      rw [List.length_replicate]
      exact binIndex_lt dt _ t C hdt hlt (by rw [← hhi]; exact ht')
    rw [getD_placeFold _ _ _ _ _ hbound]
    have hrepl : (List.replicate C (0 : ℕ)).getD j 0 = 0 := by
      simp [List.getD_eq_getElem?_getD, List.getElem?_replicate, hjC]
    rw [hrepl, Nat.zero_add, List.countP_filter]
    have hrhs : (gridCounts dt (i * C) L ts)[j] = binCount dt ts (i * C + j) := by
      simp [gridCounts]
    rw [hrhs, binCount_eq_countP]
    apply List.countP_congr
    intro t _
    simp only [Bool.and_eq_true, decide_eq_true_eq]
    have e1 : ((i * C + j : ℕ) : ℚ) * dt = (i : ℚ) * ((C : ℚ) * dt) + (j : ℚ) * dt := by
      push_cast
      ring
    have e2 : (((i * C + j : ℕ) : ℚ) + 1) * dt = (i : ℚ) * ((C : ℚ) * dt) + ((j : ℚ) + 1) * dt := by
      push_cast
      ring
    have hj0 : (0 : ℚ) ≤ (j : ℚ) * dt := mul_nonneg (Nat.cast_nonneg j) hdt.le
    have hjC1 : ((j : ℚ) + 1) * dt ≤ (C : ℚ) * dt := by
      refine mul_le_mul_of_nonneg_right ?_ hdt.le
      exact_mod_cast hjC
    rw [e1, e2]
    constructor
    · rintro ⟨⟨hlt, hbi⟩, _⟩
      exact (binIndex_eq_iff dt _ t j hdt hlt).mp hbi
    · rintro ⟨h1, h2⟩
      have hlt : (i : ℚ) * ((C : ℚ) * dt) ≤ t := by linarith
      exact ⟨⟨hlt, (binIndex_eq_iff dt _ t j hdt hlt).mpr ⟨h1, h2⟩⟩, by rw [hhi]; linarith⟩

lemma blockLen_le (numout C : ℕ) (hC : 1 ≤ C) (islast : Bool) :
    blockLen numout C islast ≤ C := by
  unfold blockLen
  split
  · exact (Nat.mod_lt _ hC).le
  · exact le_rfl

lemma binCount_filter_ge (dt a : ℚ) (ts : List ℚ) (m : ℕ) (h : a ≤ (m : ℚ) * dt) :
    binCount dt (ts.filter (fun t => decide (a ≤ t))) m = binCount dt ts m := by
  rw [binCount_eq_countP, binCount_eq_countP, List.countP_filter]
  apply List.countP_congr
  intro t _
  simp only [Bool.and_eq_true, decide_eq_true_eq]
  constructor
  · rintro ⟨h1, _⟩
    exact h1
  · intro h1
    exact ⟨h1, le_trans h h1.1⟩

lemma gridCounts_filter_ge (dt a : ℚ) (lo len : ℕ) (ts : List ℚ)
    (hdt : 0 ≤ dt) (h : a ≤ (lo : ℚ) * dt) :
    gridCounts dt lo len (ts.filter (fun t => decide (a ≤ t))) = gridCounts dt lo len ts := by
  unfold gridCounts
  apply List.map_congr_left
  intro m hm
  have hlom : lo ≤ m := (List.mem_range'_1.mp hm).1
  apply binCount_filter_ge
  have : (lo : ℚ) * dt ≤ (m : ℚ) * dt :=
    mul_le_mul_of_nonneg_right (by exact_mod_cast hlom) hdt
  linarith

lemma binLoop_blocks (dt : ℚ) (C numout : ℕ) (hdt : 0 < dt) (hC : 1 ≤ C) :
    ∀ (n i : ℕ) (ts : List ℚ) (p : ℕ), ts.Sorted (· ≤ ·) →
    (binLoop dt C numout n i ts p).1 =
      (List.range' i n).map
        (fun k => gridCounts dt (k * C) (blockLen numout C (decide (k = i + n - 1))) ts) := by
  intro n
  induction n with
  | zero =>
    intro i ts p _
    rfl
  | succ n ih =>
    intro i ts p hs
    simp only [binLoop, sweepBlock_eq]
    rw [List.range'_succ, List.map_cons]
    congr 1
    · have hiff : (i = i + (n + 1) - 1) ↔ (n = 0) := by omega
      simp only [hiff]
      have := block_eq_gridCounts dt C i (blockLen numout C (decide (n = 0))) ts p hdt
        (blockLen_le numout C hC _) hs
      rw [sweepBlock_eq] at this
      exact this
    · rw [sorted_dropWhile_lt hs]
      rw [ih (i + 1) _ _ ((hs.filter _))]
      apply List.map_congr_left
      intro k hk
      have hik : i + 1 ≤ k := (List.mem_range'_1.mp hk).1
      have hidx : (k = i + 1 + n - 1) ↔ (k = i + (n + 1) - 1) := by omega
      simp only [hidx]
      apply gridCounts_filter_ge
      · exact hdt.le
      · have hcast : ((i : ℚ) + 1) * ((C : ℚ) * dt) = (((i + 1) * C : ℕ) : ℚ) * dt := by
          push_cast
          ring
        rw [hcast]
        refine mul_le_mul_of_nonneg_right ?_ hdt.le
        exact_mod_cast Nat.mul_le_mul_right C hik

lemma gridCounts_append (dt : ℚ) (a x y : ℕ) (ts : List ℚ) :
    gridCounts dt a x ts ++ gridCounts dt (a + x) y ts = gridCounts dt a (x + y) ts := by
  unfold gridCounts
  rw [← List.map_append, List.range'_append_1, Nat.add_comm y x]

lemma blocks_flatten (dt : ℚ) (C numout : ℕ) (ts : List ℚ) :
    ∀ (n i : ℕ),
      ((List.range' i n).map
        (fun k => gridCounts dt (k * C) (blockLen numout C (decide (k = i + n - 1))) ts)).flatten
      = gridCounts dt (i * C) (blocksTotal numout C n) ts := by
  intro n
  induction n with
  | zero => intro i; rfl
  | succ n ih =>
    intro i
    rw [List.range'_succ, List.map_cons, List.flatten_cons]
    cases n with
    | zero =>
      have hd0 : decide (i = i + (0 + 1) - 1) = true := decide_eq_true (by omega)
      simp only [hd0]
      simp [blocksTotal]
    | succ m =>
      have hd0 : decide (i = i + (m + 1 + 1) - 1) = false := decide_eq_false (by omega)
      simp only [hd0]
      have hidx : ∀ k, (k = i + 1 + (m + 1) - 1) ↔ (k = i + (m + 1 + 1) - 1) := by
        intro k
        omega
      have htail := ih (i + 1)
      simp only [hidx] at htail
      rw [htail]
      have hstep : (i + 1) * C = i * C + C := by ring
      rw [hstep]
      have hbl : blockLen numout C false = C := by
        simp [blockLen]
      rw [hbl, gridCounts_append]
      have htot : C + blocksTotal numout C (m + 1) = blocksTotal numout C (m + 1 + 1) := by
        simp only [blocksTotal]
        have e : (m + 1) * C = m * C + C := by ring
        omega
      rw [htot]

lemma blocksTotal_numwrites (numout C : ℕ) (hC : 1 ≤ C) :
    blocksTotal numout C (numwrites numout C) = numout := by
  have hd := Nat.div_add_mod numout C
  unfold numwrites
  by_cases h : numout % C = 0
  · rw [if_neg (by simpa using h)]
    rcases hq : numout / C with _ | q
    · rw [hq, h] at hd
      show (0 : ℕ) = numout
      omega
    · rw [hq] at hd
      show q * C + blockLen numout C true = numout
      rw [blockLen, if_neg (by simp [h])]
      have e2 : C * (q + 1) = q * C + C := by ring
      omega
  · rw [if_pos h]
    show (numout / C) * C + blockLen numout C true = numout
    rw [blockLen, if_pos ⟨h, rfl⟩]
    have e2 : C * (numout / C) = (numout / C) * C := by ring
    omega

lemma numwrites_eq_ceil (numout C : ℕ) (hC : 1 ≤ C) :
    numwrites numout C = (numout + C - 1) / C := by
  have hd := Nat.div_add_mod numout C
  have hC0 : 0 < C := hC
  unfold numwrites
  by_cases h : numout % C = 0
  · rw [if_neg (by simpa using h)]
    rcases hq : numout / C with _ | q
    · rw [hq, h] at hd
      have h0 : numout = 0 := by omega
      subst h0
      symm
      exact Nat.div_eq_of_lt (by omega)
    · rw [hq] at hd
      have e : numout + C - 1 = (C - 1) + C * (q + 1) := by omega
      rw [e, Nat.add_mul_div_left _ _ hC0, Nat.div_eq_of_lt (by omega : C - 1 < C)]
      omega
  · rw [if_pos h]
    have hrC : numout % C < C := Nat.mod_lt _ hC0
    have e2 : C * (numout / C + 1) = C * (numout / C) + C := by ring
    have e : numout + C - 1 = (numout % C - 1) + C * (numout / C + 1) := by omega
    rw [e, Nat.add_mul_div_left _ _ hC0, Nat.div_eq_of_lt (by omega : numout % C - 1 < C)]
    omega

lemma binLoop_num_blocks (dt : ℚ) (C numout : ℕ) :
    ∀ (n i : ℕ) (ts : List ℚ) (p : ℕ), (binLoop dt C numout n i ts p).1.length = n := by
  intro n
  induction n with
  | zero => intro i ts p; rfl
  | succ n ih =>
    intro i ts p
    simp only [binLoop, List.length_cons, ih]

lemma binLoop_map_length (dt : ℚ) (C numout : ℕ) (hC : 1 ≤ C) :
    ∀ (n i : ℕ) (ts : List ℚ) (p : ℕ),
      (binLoop dt C numout n i ts p).1.map List.length
        = (List.range' i n).map (fun k => blockLen numout C (decide (k = i + n - 1))) := by
  intro n
  induction n with
  | zero => intro i ts p; rfl
  | succ n ih =>
    intro i ts p
    simp only [binLoop, List.map_cons, List.range'_succ]
    congr 1
    · rw [List.length_take, sweepBlock_fst_length, List.length_replicate]
      have hiff : (i = i + (n + 1) - 1) ↔ (n = 0) := by omega
      simp only [hiff]
      exact Nat.min_eq_left (blockLen_le numout C hC _)
    · rw [ih (i + 1)]
      apply List.map_congr_left
      intro k _
      have hidx : (k = i + 1 + n - 1) ↔ (k = i + (n + 1) - 1) := by omega
      simp only [hidx]

lemma binEngine_flatten (dt : ℚ) (C numout : ℕ) (ts : List ℚ)
    (hdt : 0 < dt) (hC : 1 ≤ C) (hs : ts.Sorted (· ≤ ·)) :
    (binEngine dt C numout ts).1.flatten = singleGrid dt numout ts := by
  unfold binEngine
  rw [binLoop_blocks dt C numout hdt hC _ 0 ts 0 hs, blocks_flatten,
    blocksTotal_numwrites numout C hC, Nat.zero_mul]
  unfold singleGrid gridCounts
  rw [List.range_eq_range']

lemma countP_interval_split (a m b : ℚ) (h1 : a ≤ m) (h2 : m ≤ b) (ts : List ℚ) :
    ts.countP (fun t => decide (a ≤ t ∧ t < m)) + ts.countP (fun t => decide (m ≤ t ∧ t < b))
      = ts.countP (fun t => decide (a ≤ t ∧ t < b)) := by
  induction ts with
  | nil => rfl
  | cons t ts ih =>
    simp only [List.countP_cons]
    by_cases c1 : a ≤ t
    · by_cases c2 : t < m
      · have c3 : t < b := lt_of_lt_of_le c2 h2
        rw [decide_eq_true (show a ≤ t ∧ t < m from ⟨c1, c2⟩),
          decide_eq_false (show ¬(m ≤ t ∧ t < b) from fun hh => absurd c2 (not_lt.mpr hh.1)),
          decide_eq_true (show a ≤ t ∧ t < b from ⟨c1, c3⟩)]
        simp only [Bool.false_eq_true, if_false, reduceIte]
        omega
      · have cm : m ≤ t := not_lt.mp c2
        by_cases c3 : t < b
        · rw [decide_eq_false (show ¬(a ≤ t ∧ t < m) from fun hh => c2 hh.2),
            decide_eq_true (show m ≤ t ∧ t < b from ⟨cm, c3⟩),
            decide_eq_true (show a ≤ t ∧ t < b from ⟨c1, c3⟩)]
          simp only [Bool.false_eq_true, if_false, reduceIte]
          omega
        · rw [decide_eq_false (show ¬(a ≤ t ∧ t < m) from fun hh => c2 hh.2),
            decide_eq_false (show ¬(m ≤ t ∧ t < b) from fun hh => c3 hh.2),
            decide_eq_false (show ¬(a ≤ t ∧ t < b) from fun hh => c3 hh.2)]
          simp only [Bool.false_eq_true, if_false, reduceIte]
          omega
    · have cm : ¬ m ≤ t := fun hm => c1 (le_trans h1 hm)
      rw [decide_eq_false (show ¬(a ≤ t ∧ t < m) from fun hh => c1 hh.1),
        decide_eq_false (show ¬(m ≤ t ∧ t < b) from fun hh => cm hh.1),
        decide_eq_false (show ¬(a ≤ t ∧ t < b) from fun hh => c1 hh.1)]
      simp only [Bool.false_eq_true, if_false, reduceIte]
      omega

lemma binLoop_placed (dt : ℚ) (C numout : ℕ) (hdt : 0 < dt) :
    ∀ (n i : ℕ) (ts : List ℚ) (p : ℕ), ts.Sorted (· ≤ ·) →
      (binLoop dt C numout n i ts p).2 =
        p + ts.countP (fun t =>
          decide (((i * C : ℕ) : ℚ) * dt ≤ t ∧ t < (((i + n) * C : ℕ) : ℚ) * dt)) := by
  intro n
  induction n with
  | zero =>
    intro i ts p _
    have hz : ts.countP (fun t =>
        decide (((i * C : ℕ) : ℚ) * dt ≤ t ∧ t < (((i + 0) * C : ℕ) : ℚ) * dt)) = 0 := by
      rw [List.countP_eq_zero]
      intro t _
      simp only [decide_eq_true_eq, not_and, not_lt]
      intro hle
      simpa using hle
    rw [hz]
    rfl
  | succ n ih =>
    intro i ts p hs
    have hlo : ((i * C : ℕ) : ℚ) * dt = (i : ℚ) * ((C : ℚ) * dt) := by
      push_cast
      ring
    have hhi : (((i + 1) * C : ℕ) : ℚ) * dt = ((i : ℚ) + 1) * ((C : ℚ) * dt) := by
      push_cast
      ring
    show (binLoop dt C numout n (i + 1)
        (sweepBlock ((i : ℚ) * ((C : ℚ) * dt)) (((i : ℚ) + 1) * ((C : ℚ) * dt)) (1 / dt)
          (List.replicate C 0) ts p).2.1
        (sweepBlock ((i : ℚ) * ((C : ℚ) * dt)) (((i : ℚ) + 1) * ((C : ℚ) * dt)) (1 / dt)
          (List.replicate C 0) ts p).2.2).2 = _
    rw [sweepBlock_eq]
    simp only []
    rw [sorted_dropWhile_lt hs, sorted_takeWhile_lt hs]
    rw [ih (i + 1) _ _ (hs.filter _)]
    rw [List.countP_filter, List.countP_filter]
    have e1 : ts.countP (fun t => decide ((i : ℚ) * ((C : ℚ) * dt) ≤ t) &&
        decide (t < ((i : ℚ) + 1) * ((C : ℚ) * dt))) =
        ts.countP (fun t => decide (((i * C : ℕ) : ℚ) * dt ≤ t ∧
          t < (((i + 1) * C : ℕ) : ℚ) * dt)) := by
      apply List.countP_congr
      intro t _
      simp only [Bool.and_eq_true, decide_eq_true_eq, hlo, hhi]
    have e2 : ts.countP (fun t => decide ((((i + 1) * C : ℕ) : ℚ) * dt ≤ t ∧
          t < ((((i + 1) + n) * C : ℕ) : ℚ) * dt) && decide (((i : ℚ) + 1) * ((C : ℚ) * dt) ≤ t)) =
        ts.countP (fun t => decide ((((i + 1) * C : ℕ) : ℚ) * dt ≤ t ∧
          t < (((i + (n + 1)) * C : ℕ) : ℚ) * dt)) := by
      apply List.countP_congr
      intro t _
      simp only [Bool.and_eq_true, decide_eq_true_eq, hhi]
      constructor
      · rintro ⟨⟨ha, hb⟩, _⟩
        refine ⟨ha, ?_⟩
        have : (i + 1 + n) = (i + (n + 1)) := by omega
        rw [← this]
        exact hb
      · rintro ⟨ha, hb⟩
        refine ⟨⟨ha, ?_⟩, ha⟩
        have : (i + 1 + n) = (i + (n + 1)) := by omega
        rw [this]
        exact hb
    rw [e2]
    have hsplit := countP_interval_split (((i * C : ℕ) : ℚ) * dt) ((((i + 1) * C : ℕ) : ℚ) * dt)
      ((((i + (n + 1)) * C : ℕ) : ℚ) * dt) ?_ ?_ ts
    · rw [e1]
      omega
    · rw [hlo, hhi]
      have : (0 : ℚ) ≤ (C : ℚ) * dt := mul_nonneg (Nat.cast_nonneg C) hdt.le
      linarith
    · refine mul_le_mul_of_nonneg_right ?_ hdt.le
      have : (i + 1) * C ≤ (i + (n + 1)) * C := Nat.mul_le_mul_right C (by omega)
      exact_mod_cast this

lemma normalizeTOAs_sorted (sec : Bool) (t0 : Option ℚ) (toas : List ℚ) :
    (normalizeTOAs sec t0 toas).Sorted (· ≤ ·) := by
  have hs : (toas.insertionSort (· ≤ ·)).Sorted (· ≤ ·) :=
    List.sorted_insertionSort (· ≤ ·) toas
  unfold normalizeTOAs
  cases sec with
  | false =>
    simp only [Bool.false_eq_true, if_false]
    refine List.Pairwise.map _ ?_ hs
    intro a b hab
    have h0 : (0 : ℚ) ≤ (SECPERDAY : ℚ) := by norm_num [SECPERDAY]
    exact mul_le_mul_of_nonneg_right (by linarith) h0
  | true =>
    simp only [if_true]
    refine List.Pairwise.map _ ?_ hs
    intro a b hab
    linarith

lemma normalizeTOAs_length (sec : Bool) (t0 : Option ℚ) (toas : List ℚ) :
    (normalizeTOAs sec t0 toas).length = toas.length := by
  unfold normalizeTOAs
  cases sec with
  | false => simp [List.length_insertionSort]
  | true => simp [List.length_insertionSort]

/-- Pointer-level model of the inner while loop (toas2dat.c lines 290-299),
tracking exactly the dereferences `toa = *toaptr` the C code performs.  The
cursor is an index `ptr` into `ts`; `cur` holds the value fetched by the most
recent dereference (`ts[ptr]?`, `none` when the fetch was past the end —
the C reads unallocated memory there); `oob` counts those past-the-end
fetches.  Placement is irrelevant here, so only the cursor state is kept.
The fuel `n` bounds the iterations (the loop advances `ptr` at most
`ts.length - ptr` times before its guard fails, so fuel `ts.length`
suffices). -/
def cursorSweep (ts : List ℚ) (hi : ℚ) : ℕ → ℕ → Option ℚ → ℕ → ℕ × Option ℚ × ℕ
  | 0, ptr, cur, oob => (ptr, cur, oob)
  | n + 1, ptr, cur, oob =>
    if ptr < ts.length then
      match cur with
      | some t =>
        if hi ≤ t then (ptr, cur, oob)
        else
          cursorSweep ts hi n (ptr + 1) ts[ptr + 1]?
            (oob + if (ts[ptr + 1]?).isNone then 1 else 0)
      | none => (ptr, cur, oob)
    else (ptr, cur, oob)

/-- The number of out-of-bounds cursor dereferences the whole run performs:
one for the initial `toa = *toaptr` (line 263) when the TOA set is empty,
plus one each time line 298 fetches `*toaptr` with `toaptr` just advanced
past the last TOA. -/
def engineOob (dt : ℚ) (C numout : ℕ) (ts : List ℚ) : ℕ :=
  let s0 : ℕ × Option ℚ × ℕ := (0, ts[0]?, if (ts[0]?).isNone then 1 else 0)
  ((List.range (numwrites numout C)).foldl
    (fun s i => cursorSweep ts (((i : ℚ) + 1) * ((C : ℚ) * dt)) ts.length s.1 s.2.1 s.2.2)
    s0).2.2

/-- Abstraction of `main`'s I/O setup (toas2dat.c lines 204-238).  The
environment says whether each `fopen` succeeds (`none` models a NULL
`FILE *`).  The code contains no test of `infile` (lines 208, 212) or
`outfile` (line 238): both handles are passed on unconditionally, so no
abort path exists for a failed open, and the phase always "proceeds",
handing the possibly-NULL handles to `read_toas`/`getfilelen`/`fwrite`
(undefined behavior in C).  `Except.error` would model the abort paths the
function does have (the short-read exits at lines 221 and 233 happen later,
after a successful open and read). -/
def openPhase (infileOpens outfileOpens : Bool) :
    Except Unit (Option Unit × Option Unit) :=
  let infile : Option Unit := if infileOpens then some () else none
  let outfile : Option Unit := if outfileOpens then some () else none
  Except.ok (infile, outfile)

/-- One text line as `read_toas` (toas2dat.c lines 50-84) observes it: the
line is blank iff its first character is a newline (`sptr[0] == '\n'`),
`startsHash` iff its first character is `#`, and `value` is the leading
float token `sscanf(line, "%lf", ...)` extracts, when it extracts one.
(Lines are those `fgets` returns with `feof` still false; the 80-byte
`fgets` window and an unterminated final line are stream-level details
outside this per-line view.) -/
structure ToaLine where
  isBlank : Bool
  startsHash : Bool
  value : Option ℚ
deriving DecidableEq

/-- The counting/loading loop of `read_toas` (toas2dat.c lines 59-84; the
two passes traverse identically, so one traversal returns the loaded list —
`numtoa` is its length).  A blank line takes the `else` branch of line 62
and `break`s out of the loop; a `#` line or a line with no parseable
leading float is skipped; any other line contributes its value. -/
def read_toas : List ToaLine → List ℚ
  | [] => []
  | l :: ls =>
    if l.isBlank then []
    else
      match l.startsHash, l.value with
      | false, some v => v :: read_toas ls
      | _, _ => read_toas ls

/-- Modelled from the spec (§4.1): "a line is a TOA iff it does not start
with `#`, is not blank, and its first whitespace-delimited token parses as
a floating point number" — the loaded values are those of the qualifying
lines, in order, with no dependence on preceding lines. -/
def specLoad (ls : List ToaLine) : List ℚ :=
  ls.filterMap (fun l => if ¬l.isBlank ∧ ¬l.startsHash then l.value else none)

lemma read_toas_eq_specLoad_takeWhile (ls : List ToaLine) :
    read_toas ls = specLoad (ls.takeWhile (fun l => ! l.isBlank)) := by
  induction ls with
  | nil => rfl
  | cons l ls ih =>
    by_cases hb : l.isBlank
    · simp [read_toas, hb, List.takeWhile_cons, specLoad]
    · rw [read_toas]
      rw [if_neg (by simp [hb])]
      rw [List.takeWhile_cons]
      simp only [hb, Bool.not_false, if_true]
      rcases hh : l.startsHash with _ | _
      · rcases hv : l.value with _ | v
        · simp [specLoad, List.filterMap_cons, hb, hh, hv, ih]
        · simp [specLoad, List.filterMap_cons, hb, hh, hv, ih]
      · simp [specLoad, List.filterMap_cons, hb, hh, ih]

lemma sum_range'_blockLen (numout C : ℕ) :
    ∀ n i, ((List.range' i n).map (fun k => blockLen numout C (decide (k = i + n - 1)))).sum
      = blocksTotal numout C n := by
  intro n
  induction n with
  | zero => intro i; rfl
  | succ n ih =>
    intro i
    rw [List.range'_succ, List.map_cons, List.sum_cons]
    cases n with
    | zero =>
      have hd0 : decide (i = i + (0 + 1) - 1) = true := decide_eq_true (by omega)
      simp only [hd0]
      simp [blocksTotal]
    | succ m =>
      have hd0 : decide (i = i + (m + 1 + 1) - 1) = false := decide_eq_false (by omega)
      simp only [hd0]
      have hidx : ∀ k, (k = i + 1 + (m + 1) - 1) ↔ (k = i + (m + 1 + 1) - 1) := by
        intro k
        omega
      have htail := ih (i + 1)
      simp only [hidx] at htail
      rw [htail]
      have hbl : blockLen numout C false = C := by
        simp [blockLen]
      rw [hbl]
      simp only [blocksTotal]
      have e : (m + 1) * C = m * C + C := by ring
      omega

lemma singleGrid_nil (dt : ℚ) (numout : ℕ) :
    singleGrid dt numout [] = List.replicate numout 0 := by
  unfold singleGrid binCount
  simp only [List.filter_nil, List.length_nil]
  rw [List.map_const', List.length_range]

lemma normalizeTOAs_nil (sec : Bool) (t0 : Option ℚ) :
    normalizeTOAs sec t0 [] = [] := by
  cases sec <;> rfl

lemma singleGrid_singleton (dt : ℚ) (numout k : ℕ) (hdt : 0 < dt) (hk : k < numout) :
    singleGrid dt numout [(k : ℚ) * dt] = (List.replicate numout 0).set k 1 := by
  apply List.ext_getElem
  · simp [singleGrid]
  · intro m hm1 hm2
    have hmn : m < numout := by
      simpa [singleGrid] using hm1
    simp only [singleGrid, List.getElem_map, List.getElem_range]
    have hset : ((List.replicate numout 0).set k 1)[m] = if k = m then 1 else 0 := by
      rw [List.getElem_set]
      split
      · rfl
      · simp
    rw [hset]
    unfold binCount
    rcases eq_or_ne k m with rfl | hne
    · have hin : (k : ℚ) * dt ≤ (k : ℚ) * dt ∧ (k : ℚ) * dt < ((k : ℚ) + 1) * dt :=
        ⟨le_rfl, by linarith⟩
      simp [List.filter_cons, hin]
    · have hout : ¬((m : ℚ) * dt ≤ (k : ℚ) * dt ∧ (k : ℚ) * dt < ((m : ℚ) + 1) * dt) := by
        rintro ⟨h1, h2⟩
        have hm_le : (m : ℚ) ≤ (k : ℚ) := le_of_mul_le_mul_right h1 hdt
        have hk_lt : (k : ℚ) < (m : ℚ) + 1 := lt_of_mul_lt_mul_right h2 hdt.le
        have h3 : m ≤ k := by exact_mod_cast hm_le
        have h4 : k < m + 1 := by exact_mod_cast (by push_cast; linarith : (k : ℚ) < ((m + 1 : ℕ) : ℚ))
        omega
      simp [List.filter_cons, hout, hne]

/-- C1 (counterexample): in Scenario B — TOAs `[0.5, 1.5, 1.5, 9.9]` in seconds
with explicit epoch 0, `dt = 1`, `outputLength = 5` — the program reports
`placed = 4`, not 3 as the claim states: the `9.9` TOA lies below the final
block's `hiTime = WORKLEN * dt` and is therefore binned (into a slack bin the
truncated final write never emits) and counted as placed.  The TOA count
outside `[0, outputLength * dt)` is 1, so under the claim's definition of
`dropped` we get `placed + dropped = 5 ≠ 4 = found`.  The written series is
still `[1,2,0,0,0]`. -/
theorem C1_counterexample :
    (toas2dat true (some 0) 1 5 [1/2, 3/2, 3/2, 99/10]).2 = 4 ∧
    (normalizeTOAs true (some 0) [1/2, 3/2, 3/2, 99/10]).countP
      (fun t => !decide ((0 : ℚ) ≤ t ∧ t < (5 : ℚ) * 1)) = 1 ∧
    (toas2dat true (some 0) 1 5 [1/2, 3/2, 3/2, 99/10]).1.flatten = [1, 2, 0, 0, 0] := by
  have hsort : List.Sorted (· ≤ ·) ([1/2, 3/2, 3/2, 99/10] : List ℚ) := by
    simp [List.sorted_cons]
    norm_num
  have hnd : normalizeTOAs true (some 0) [1/2, 3/2, 3/2, 99/10] =
      [1/2, 3/2, 3/2, 99/10] := by
    unfold normalizeTOAs
    rw [List.Sorted.insertionSort_eq hsort]
    simp
  refine ⟨?_, ?_, ?_⟩
  · unfold toas2dat binEngine
    rw [hnd, binLoop_placed 1 WORKLEN 5 one_pos (numwrites 5 WORKLEN) 0 _ 0 hsort]
    norm_num [numwrites, WORKLEN, List.countP_cons]
  · rw [hnd]
    norm_num [List.countP_cons]
  · unfold toas2dat
    rw [hnd, binEngine_flatten 1 WORKLEN 5 _ one_pos (by norm_num [WORKLEN]) hsort]
    norm_num [singleGrid, binCount, List.range_succ, List.filter_cons]

/-- C1 (amended): count conservation holds with `dropped` counting the TOAs
whose normalized offset lies outside `[0, numwrites * WORKLEN * dt)` — the
union of all block windows — rather than outside `[0, outputLength * dt)`:
`placed + dropped = found` for every run with `dt > 0`.  (TOAs in the final
block's slack zone `[outputLength * dt, numwrites * WORKLEN * dt)` are binned
and counted as placed even though the truncated final write drops their
bins.) -/
theorem C1_count_conservation (sec : Bool) (t0 : Option ℚ) (dt : ℚ) (numout : ℕ)
    (toas : List ℚ) (hdt : 0 < dt) :
    (toas2dat sec t0 dt numout toas).2 +
      (normalizeTOAs sec t0 toas).countP
        (fun t => !decide ((0 : ℚ) ≤ t ∧
            t < ((numwrites numout WORKLEN * WORKLEN : ℕ) : ℚ) * dt)) = toas.length := by
  have hplaced : (toas2dat sec t0 dt numout toas).2 =
      (normalizeTOAs sec t0 toas).countP
        (fun t => decide ((0 : ℚ) ≤ t ∧
            t < ((numwrites numout WORKLEN * WORKLEN : ℕ) : ℚ) * dt)) := by
    unfold toas2dat binEngine
    rw [binLoop_placed dt WORKLEN numout hdt (numwrites numout WORKLEN) 0 _ 0
      (normalizeTOAs_sorted sec t0 toas)]
    rw [Nat.zero_add]
    apply List.countP_congr
    intro t _
    simp only [decide_eq_true_eq, Nat.zero_mul, Nat.cast_zero, zero_mul, Nat.zero_add]
  rw [hplaced]
  have hnot : (normalizeTOAs sec t0 toas).countP
      (fun t => !decide ((0 : ℚ) ≤ t ∧
          t < ((numwrites numout WORKLEN * WORKLEN : ℕ) : ℚ) * dt)) =
      (normalizeTOAs sec t0 toas).countP
      (fun t => ¬((fun t => decide ((0 : ℚ) ≤ t ∧
          t < ((numwrites numout WORKLEN * WORKLEN : ℕ) : ℚ) * dt)) t = true)) := by
    apply List.countP_congr
    intro t _
    simp
  rw [hnot, ← @List.length_eq_countP_add_countP _
    (fun t => decide ((0 : ℚ) ≤ t ∧
      t < ((numwrites numout WORKLEN * WORKLEN : ℕ) : ℚ) * dt)) (normalizeTOAs sec t0 toas)]
  exact normalizeTOAs_length sec t0 toas

/-- C1 (witness): the amended conservation law applied to Scenario B:
placed (= 4) plus the TOAs outside `[0, numwrites * WORKLEN * dt)` (= 0)
equals found (= 4). -/
theorem C1_count_conservation_witness :
    (toas2dat true (some 0) 1 5 [1/2, 3/2, 3/2, 99/10]).2 +
      (normalizeTOAs true (some 0) [1/2, 3/2, 3/2, 99/10]).countP
        (fun t => !decide ((0 : ℚ) ≤ t ∧
            t < ((numwrites 5 WORKLEN * WORKLEN : ℕ) : ℚ) * 1)) = 4 :=
  C1_count_conservation true (some 0) 1 5 [1/2, 3/2, 3/2, 99/10] (by norm_num)

/-- C2: the claim says a failed open of the TOA source (or output sink)
aborts the run with a nonzero exit before any output; the code never tests
the `fopen` results (toas2dat.c lines 208, 212, 238), so the open phase
always proceeds, handing a NULL handle (modelled `none`) to
`read_toas`/`getfilelen`/`fwrite` — there is no abort branch to take.
Compare `readinf` (lines 92-96), which does check and `exit(-1)`; its
pattern is the intent the spec describes, making the missing checks a code
bug.  The theorem evaluates the open phase on a failed source open (and a
failed sink open) and shows no input makes it abort. -/
theorem C2_no_abort_on_failed_open :
    openPhase false true = Except.ok (none, some ()) ∧
    openPhase true false = Except.ok (some (), none) ∧
    ∀ a b : Bool, openPhase a b ≠ Except.error () := by
  refine ⟨rfl, rfl, ?_⟩
  intro a b
  simp [openPhase]

/-- C3: the block-by-block engine refines the single-grid histogram: for
every sorted TOA list, `dt > 0`, output length and block capacity `C ≥ 1`,
the concatenation of the emitted (truncated) blocks equals the histogram of
the TOAs over the contiguous grid of `outputLength` bins of width `dt`
starting at the origin. -/
theorem C3_refines_single_grid (dt : ℚ) (C numout : ℕ) (ts : List ℚ)
    (hdt : 0 < dt) (hC : 1 ≤ C) (hs : ts.Sorted (· ≤ ·)) :
    (binEngine dt C numout ts).1.flatten = singleGrid dt numout ts :=
  binEngine_flatten dt C numout ts hdt hC hs

/-- C3 (witness): Scenario D — capacity 2, `outputLength = 5`, the Scenario
A/B TOAs — gives three blocks of lengths `[2,2,1]` whose concatenation
matches the single-grid histogram. -/
theorem C3_refines_single_grid_witness :
    (binEngine 1 2 5 [1/2, 3/2, 3/2, 99/10]).1.flatten
      = singleGrid 1 5 [1/2, 3/2, 3/2, 99/10] ∧
    (binEngine 1 2 5 [1/2, 3/2, 3/2, 99/10]).1.map List.length = [2, 2, 1] := by
  constructor
  · exact C3_refines_single_grid 1 2 5 [1/2, 3/2, 3/2, 99/10] (by norm_num) (by norm_num)
      (by simp [List.sorted_cons]; norm_num)
  · rw [binEngine, binLoop_map_length 1 2 5 (by norm_num)]
    norm_num [numwrites, List.range', blockLen]

/-- C4: an empty TOA set is not fatal: for every configuration with
`dt > 0` the engine emits an all-zero series of exactly `outputLength` bins
and reports `placed = 0`. -/
theorem C4_empty_input (sec : Bool) (t0 : Option ℚ) (dt : ℚ) (numout : ℕ)
    (hdt : 0 < dt) :
    (toas2dat sec t0 dt numout []).1.flatten = List.replicate numout 0 ∧
    (toas2dat sec t0 dt numout []).2 = 0 := by
  unfold toas2dat
  rw [normalizeTOAs_nil]
  constructor
  · rw [binEngine_flatten dt WORKLEN numout [] hdt (by norm_num [WORKLEN]) List.sorted_nil,
      singleGrid_nil]
  · unfold binEngine
    rw [binLoop_placed dt WORKLEN numout hdt (numwrites numout WORKLEN) 0 [] 0 List.sorted_nil]
    simp

/-- C4 (witness): Scenario C — empty TOA set, `outputLength = 3` — yields
the series `[0,0,0]` with `placed = 0`. -/
theorem C4_empty_input_witness :
    (toas2dat true none 1 3 []).1.flatten = [0, 0, 0] ∧
    (toas2dat true none 1 3 []).2 = 0 := by
  have h := C4_empty_input true none 1 3 (by norm_num)
  exact ⟨h.1.trans rfl, h.2⟩

/-- C5 (counterexample): the stream "1", blank line, "2" — where the line
"2" qualifies (not blank, no `#`, parses as a float) — loads only `[1]`:
the blank line takes the loop's `break` branch (toas2dat.c line 62's `else`,
lines 65-67), so reading stops and the qualifying line after it is never
examined, while the claim's iff-characterization (`specLoad`) gives
`[1, 2]`. -/
theorem C5_counterexample :
    read_toas [⟨false, false, some 1⟩, ⟨true, false, none⟩, ⟨false, false, some 2⟩] = [1] ∧
    specLoad [⟨false, false, some 1⟩, ⟨true, false, none⟩, ⟨false, false, some 2⟩] = [1, 2] :=
  ⟨rfl, rfl⟩

/-- C5 (amended): a line is counted and loaded as a TOA iff it appears
before the first blank line of the stream, does not start with `#`, and its
first token parses as a float: the loader equals the spec's filter applied
to the prefix of the stream before the first blank line. -/
theorem C5_loaded_iff_qualifying_before_blank (ls : List ToaLine) :
    read_toas ls = specLoad (ls.takeWhile (fun l => ! l.isBlank)) :=
  read_toas_eq_specLoad_takeWhile ls

/-- C6: for every `outputLength ≥ 0` and capacity `C ≥ 1` the engine emits
`ceil(outputLength / C)` blocks; each block has length `C` except possibly
the last, which has length `outputLength mod C` when that remainder is
nonzero; and the lengths sum to exactly `outputLength`. -/
theorem C6_block_length_law (dt : ℚ) (C numout : ℕ) (ts : List ℚ) (hC : 1 ≤ C) :
    (binEngine dt C numout ts).1.length = (numout + C - 1) / C ∧
    (binEngine dt C numout ts).1.map List.length
      = (List.range' 0 (numwrites numout C)).map
          (fun k => if numout % C ≠ 0 ∧ k = numwrites numout C - 1 then numout % C else C) ∧
    ((binEngine dt C numout ts).1.map List.length).sum = numout := by
  refine ⟨?_, ?_, ?_⟩
  · rw [binEngine, binLoop_num_blocks, numwrites_eq_ceil numout C hC]
  · rw [binEngine, binLoop_map_length dt C numout hC]
    apply List.map_congr_left
    intro k _
    rw [blockLen]
    simp only [Nat.zero_add, decide_eq_true_eq]
  · rw [binEngine, binLoop_map_length dt C numout hC, sum_range'_blockLen,
      blocksTotal_numwrites numout C hC]

/-- C6 (witness): the law at `outputLength = 5`, capacity `C = 2`:
three blocks, lengths `[2,2,1]`, summing to 5. -/
theorem C6_block_length_law_witness :
    (binEngine 1 2 5 [1/2, 3/2, 3/2, 99/10]).1.length = (5 + 2 - 1) / 2 ∧
    (binEngine 1 2 5 [1/2, 3/2, 3/2, 99/10]).1.map List.length
      = (List.range' 0 (numwrites 5 2)).map
          (fun k => if 5 % 2 ≠ 0 ∧ k = numwrites 5 2 - 1 then 5 % 2 else 2) ∧
    ((binEngine 1 2 5 [1/2, 3/2, 3/2, 99/10]).1.map List.length).sum = 5 :=
  C6_block_length_law 1 2 5 [1/2, 3/2, 3/2, 99/10] (by norm_num)

/-- C7: after normalization (sort by value, then subtract the origin, then
for day units scale by 86400) the TOA sequence is non-decreasing, for every
input TOA set, unit mode and epoch choice: the positive affine conversion
applied after sorting preserves order. -/
theorem C7_sorted_after_normalization (sec : Bool) (t0 : Option ℚ) (toas : List ℚ) :
    (normalizeTOAs sec t0 toas).Sorted (· ≤ ·) :=
  normalizeTOAs_sorted sec t0 toas

/-- C8: a TOA whose normalized offset is exactly `k * dt` with
`0 ≤ k < outputLength` lands in bin `k`: the bin-index computation
`(int)((toa - lotime) * (1/dt))` yields exactly `k` at offset `k * dt`, and
running the engine on that single TOA produces the series that is zero
everywhere except a 1 in bin `k` — never bin `k-1` or `k+1`. -/
theorem C8_boundary_tick (dt : ℚ) (C numout k : ℕ) (hdt : 0 < dt) (hC : 1 ≤ C)
    (hk : k < numout) :
    binIndex ((k : ℚ) * dt) 0 (1 / dt) = k ∧
    (binEngine dt C numout [(k : ℚ) * dt]).1.flatten = (List.replicate numout 0).set k 1 := by
  constructor
  · have h0 : (0 : ℚ) ≤ (k : ℚ) * dt := mul_nonneg (Nat.cast_nonneg k) hdt.le
    rw [binIndex_eq_iff dt 0 ((k : ℚ) * dt) k hdt h0]
    constructor
    · linarith
    · linarith
  · rw [binEngine_flatten dt C numout _ hdt hC (List.sorted_singleton _),
      singleGrid_singleton dt numout k hdt hk]

/-- C8 (witness): `dt = 1`, capacity 2, `outputLength = 5`, `k = 2`: the
single TOA at offset 2 increments exactly bin 2. -/
theorem C8_boundary_tick_witness :
    binIndex (((2 : ℕ) : ℚ) * 1) 0 (1 / 1) = 2 ∧
    (binEngine 1 2 5 [((2 : ℕ) : ℚ) * 1]).1.flatten = (List.replicate 5 0).set 2 1 :=
  C8_boundary_tick 1 2 5 2 (by norm_num) (by norm_num) (by norm_num)

/-- C9: the claim that every cursor dereference reads an index strictly
below the TOA count is false on the code: after placing the final TOA the
loop body executes `toaptr++; toa = *toaptr;` (toas2dat.c lines 297-298)
before re-checking the guard, dereferencing index `ntoas`; and line 263
(`toa = *toaptr`) dereferences index 0 even when the TOA set is empty.  In
the `Option`-indexed pointer model both runs hit the out-of-bounds branch
exactly once (the fetched value is never used, which is why the program
otherwise behaves normally). -/
theorem C9_oob_cursor_reads :
    engineOob 1 WORKLEN 5 [1/2] = 1 ∧ engineOob 1 WORKLEN 5 [] = 1 := by
  have hnw : numwrites 5 WORKLEN = 1 := by norm_num [numwrites, WORKLEN]
  constructor
  · rw [engineOob, hnw]
    norm_num [cursorSweep, List.range_succ, WORKLEN]
  · rw [engineOob, hnw]
    norm_num [cursorSweep, List.range_succ, WORKLEN]

/-- C10: for every block index `i` and every TOA `t` inside the block's
window `[lotime, hitime)` with `lotime = i * WORKLEN * dt`, `dt > 0`, the
bin index `(int)((t - lotime) * (1/dt))` is nonnegative and strictly below
`WORKLEN`, so the increment stays inside the 65536-element buffer. -/
theorem C10_bin_index_in_bounds (dt t : ℚ) (i : ℕ) (hdt : 0 < dt)
    (h1 : (i : ℚ) * ((WORKLEN : ℚ) * dt) ≤ t)
    (h2 : t < ((i : ℚ) + 1) * ((WORKLEN : ℚ) * dt)) :
    (0 : ℤ) ≤ ((t - (i : ℚ) * ((WORKLEN : ℚ) * dt)) * (1 / dt)).floor ∧
    binIndex t ((i : ℚ) * ((WORKLEN : ℚ) * dt)) (1 / dt) < WORKLEN := by
  constructor
  · rw [ratFloor_eq_intFloor]
    exact binIndex_nonneg_int dt _ t hdt h1
  · apply binIndex_lt dt _ t WORKLEN hdt h1
    have he : (i : ℚ) * ((WORKLEN : ℚ) * dt) + (WORKLEN : ℚ) * dt
        = ((i : ℚ) + 1) * ((WORKLEN : ℚ) * dt) := by ring
    linarith

/-- C10 (witness): the bounds at `dt = 1`, block 0, TOA `t = 3`. -/
theorem C10_bin_index_in_bounds_witness :
    (0 : ℤ) ≤ (((3 : ℚ) - (0 : ℚ) * ((WORKLEN : ℚ) * 1)) * (1 / 1)).floor ∧
    binIndex 3 ((0 : ℚ) * ((WORKLEN : ℚ) * 1)) (1 / 1) < WORKLEN :=
  C10_bin_index_in_bounds 1 3 0 (by norm_num) (by norm_num) (by norm_num [WORKLEN])
